import Mathlib

/-!
Shallow embedding of the `crt` ray tracer's core (crates `mem`, `bvh`,
`scene`, `render`) together with proofs about the behaviour its
specification describes.

Modelling conventions:
* `usize` values are natural numbers; wrapping arithmetic is made explicit
  with `% 2 ^ 64` (`USIZE`), `u32` arithmetic with `% 2 ^ 32` (`U32`).
* IEEE-754 doubles are modelled as exact rationals (`ℚ`).  All concrete
  inputs used in counterexamples and witnesses are chosen so that every
  double operation involved is exact, which makes the rational model
  faithful on those inputs.  `f64::total_cmp` coincides with the order on
  `ℚ` because rationals have no NaNs or signed zeros to distinguish.
* Fallible operations return `Option`, or explicitly thread the mutated
  state where the Rust code mutates `self` before failing.
-/

/-! ## Region allocator (`crates/mem/src/lib.rs`) -/

namespace MemModel

/-- `usize` modulus. -/
def USIZE : Nat := 2 ^ 64

/-- The observable state of a `Mem<'m>` region: `raw` is the remaining
free suffix of the backing buffer, modelled by its start address and its
length.  `Mem::free` returns `len`. -/
structure Mem where
  addr : Nat
  len : Nat
deriving DecidableEq, Repr

/-- `Mem::free`. -/
def Mem.free (m : Mem) : Nat := m.len

/-- `Mem::alloc_bytes(n)`: `Err(Oom)` when `raw.len() < n`, otherwise
split off the first `n` bytes.  The returned `Bool` is the success flag;
the returned state is the state of `self` after the call (unchanged on
failure, exactly as in the source). -/
def Mem.allocBytes (m : Mem) (n : Nat) : Bool × Mem :=
  if m.len < n then (false, m) else (true, ⟨m.addr + n, m.len - n⟩)

/-- `Mem::align_to(align)`: `aligned = addr.wrapping_add(align - 1) & !(align - 1)`
(the mask keeps the bits above `align`, i.e. rounds down to a multiple of
`align`), `waste = aligned.checked_sub(addr)` (`Oom` when the wrapping add
wrapped), then `alloc_bytes(waste)`. -/
def Mem.alignTo (m : Mem) (align : Nat) : Bool × Mem :=
  let aligned := (m.addr + (align - 1)) % USIZE / align * align
  if aligned < m.addr then (false, m)
  else m.allocBytes (aligned - m.addr)

/-- `Mem::alloc::<T>` for a type of the given size and alignment:
`align_to(align)` followed by `alloc_bytes(size)`.  When `align_to`
succeeds but the reservation fails, the state keeps the padding consumed
by `align_to`, exactly as in the source. -/
def Mem.alloc (m : Mem) (size align : Nat) : Bool × Mem :=
  let (ok, m1) := m.alignTo align
  if ok then m1.allocBytes size else (false, m1)

/-- One parent-side allocation request issued by the body of
`with_scratch` (the element type's size and alignment). -/
structure AllocReq where
  size : Nat
  align : Nat

/-- The effect on the parent region of a sequence of `alloc` calls made
by the body of `with_scratch` (failed calls keep their partial mutation,
as in the source). -/
def applyAllocs (ops : List AllocReq) (m : Mem) : Mem :=
  ops.foldl (fun m op => (m.alloc op.size op.align).2) m

/-- `Mem::with_scratch(size, f)`: the parent keeps the low
`orig_len - size` bytes while `f` runs; afterwards the parent's slice is
rebuilt as the last `self.raw.len() + size` bytes of the original
buffer.  The body `f` is represented by the sequence of allocation
requests it issues on the parent. -/
def Mem.withScratch (m : Mem) (size : Nat) (ops : List AllocReq) : Mem :=
  let parent0 : Mem := ⟨m.addr, m.len - size⟩
  let parent1 := applyAllocs ops parent0
  let len := parent1.len + size
  ⟨m.addr + (m.len - len), len⟩

end MemModel

/-! ## BVH construction (`crates/bvh/src/lib.rs`)

Doubles are modelled as exact rationals; `f64::total_cmp` agrees with the
order on `ℚ` because the rational model has no NaNs or signed zeros. -/

namespace BvhModel

/-- `geom::v64`. -/
structure V3 where
  x : ℚ
  y : ℚ
  z : ℚ
deriving DecidableEq, Repr

instance : Inhabited V3 := ⟨⟨0, 0, 0⟩⟩

/-- `v64 + v64`. -/
def V3.add (a b : V3) : V3 := ⟨a.x + b.x, a.y + b.y, a.z + b.z⟩

/-- `v64 - v64`. -/
def V3.sub (a b : V3) : V3 := ⟨a.x - b.x, a.y - b.y, a.z - b.z⟩

/-- `v64 / f64` (the source multiplies by the reciprocal). -/
def V3.div (a : V3) (c : ℚ) : V3 := ⟨a.x * (1 / c), a.y * (1 / c), a.z * (1 / c)⟩

/-- `v64::xyz()[i]`. -/
def V3.get (a : V3) : Nat → ℚ
  | 0 => a.x
  | 1 => a.y
  | _ => a.z

/-- `bvh::BoundingBox`. -/
structure Box where
  lo : V3
  hi : V3
deriving DecidableEq, Repr

instance : Inhabited Box := ⟨⟨default, default⟩⟩

/-- `BoundingBox::from_point`. -/
def Box.fromPoint (v : V3) : Box := ⟨v, v⟩

/-- `BoundingBox::diag`. -/
def Box.diag (b : Box) : V3 := b.hi.sub b.lo

/-- `BoundingBox::center`. -/
def Box.center (b : Box) : V3 := b.lo.add (b.diag.div 2)

/-- `BoundingBox::longest_axis`. -/
def Box.longestAxis (b : Box) : Nat :=
  let d := b.diag
  if d.x > d.y ∧ d.x > d.z then 0
  else if d.y > d.z then 1
  else 2

/-- `BoundingBox::union`. -/
def Box.union (a b : Box) : Box :=
  ⟨⟨min a.lo.x b.lo.x, min a.lo.y b.lo.y, min a.lo.z b.lo.z⟩,
   ⟨max a.hi.x b.hi.x, max a.hi.y b.hi.y, max a.hi.z b.hi.z⟩⟩

/-- The temporary tree `bvh::Node` built by `bvh_recur` (the two-element
children array is modelled as two fields). -/
inductive Node where
  | split (l r : Node) (bb : Box) (axis : Nat)
  | leaf (face : Nat) (bb : Box)
deriving DecidableEq, Repr

/-- `Node::bounding_box`. -/
def Node.boundingBox : Node → Box
  | .split _ _ bb _ => bb
  | .leaf _ bb => bb

/-- The bounding box of the face centers:
`faces.iter().map(center).map(from_point).reduce(union).unwrap()`
(`reduce` folds from the first element; the empty case panics in the
source and is never reached because `bvh_recur` is only called on
non-empty slices). -/
def centersBox (bbs : Nat → Box) (faces : List Nat) : Box :=
  match faces with
  | [] => default
  | f :: rest =>
      rest.foldl (fun acc i => acc.union (Box.fromPoint (bbs i).center))
        (Box.fromPoint (bbs f).center)

/-- The split axis chosen for a slice of faces. -/
def splitAxis (bbs : Nat → Box) (faces : List Nat) : Nat :=
  (centersBox bbs faces).longestAxis

/-- The sort key: the chosen coordinate of a face's center. -/
def faceKey (bbs : Nat → Box) (axis : Nat) (i : Nat) : ℚ :=
  ((bbs i).center).get axis

/-- `faces.sort_by(|&i, &j| key(i).total_cmp(&key(j)))`.  Rust's
`sort_by` is a stable sort; `insertionSort` is also stable, and under the
same total order (here the order on `ℚ`, which `total_cmp` restricts to on
NaN-free values) the two agree. -/
def sortFaces (bbs : Nat → Box) (faces : List Nat) : List Nat :=
  faces.insertionSort
    (fun i j => faceKey bbs (splitAxis bbs faces) i ≤ faceKey bbs (splitAxis bbs faces) j)

/-- `bvh_recur` (memory abstracted away: scratch allocation of tree nodes
always succeeds in the model; an `Oom` build returns no BVH and is out of
scope for the structural claims). -/
def bvhRecur (bbs : Nat → Box) : List Nat → Option Node
  | [] => none
  | [f] => some (.leaf f (bbs f))
  | a :: b :: rest =>
      let faces := a :: b :: rest
      let sorted := sortFaces bbs faces
      let mid := faces.length / 2
      match bvhRecur bbs (sorted.take mid), bvhRecur bbs (sorted.drop mid) with
      | some l, some r =>
          some (.split l r (l.boundingBox.union r.boundingBox) (splitAxis bbs faces))
      | _, _ => none
termination_by faces => faces.length
decreasing_by
  all_goals
    have hlen : (sortFaces bbs (a :: b :: rest)).length = (a :: b :: rest).length :=
      (List.perm_insertionSort _ _).length_eq
    simp only [List.length_take, List.length_drop, List.length_cons] at *
    omega

/-- `n_splits` as returned by `bvh_recur` (`ls + rs + 1` for a split). -/
def Node.countSplits : Node → Nat
  | .split l r _ _ => l.countSplits + r.countSplits + 1
  | .leaf _ _ => 0

/-- `n_leaves` as returned by `bvh_recur` (`ll + rl` for a split). -/
def Node.countLeaves : Node → Nat
  | .split l r _ _ => l.countLeaves + r.countLeaves
  | .leaf _ _ => 1

/-- Depth of the temporary tree: the longest root-to-leaf chain of nodes. -/
def Node.depth : Node → Nat
  | .split l r _ _ => 1 + max l.depth r.depth
  | .leaf _ _ => 1

/-- `LEAF_BIT = 1u32.rotate_right(1) = 0x8000_0000`. -/
def LEAF_BIT : Nat := 2 ^ 31

/-- `bvh::BvhSplit`. -/
structure BvhSplit where
  children : Nat × Nat
  bb : Box
  axis : Nat
deriving DecidableEq, Repr

instance : Inhabited BvhSplit := ⟨⟨(0, 0), default, 0⟩⟩

/-- `bvh::BvhLeaf`. -/
structure BvhLeaf where
  face : Nat
  bb : Box
deriving DecidableEq, Repr

instance : Inhabited BvhLeaf := ⟨⟨0, default⟩⟩

/-- The mutable state of `fill`: the two pre-allocated arrays and the
`idx = (next_split, next_leaf)` counter pair. -/
structure FillState where
  splits : List BvhSplit
  leaves : List BvhLeaf
  i : Nat
  j : Nat
deriving Repr

/-- `fill(res, idx, node)`: walks the temporary tree depth-first,
left-first, writing each node at the next index of its array and
returning its tag (`LEAF_BIT` set for leaves). -/
def fill (node : Node) (s : FillState) : Nat × FillState :=
  match node with
  | .split cl cr bb axis =>
      let i := s.i
      let s := { s with i := i + 1 }
      let (lt, s) := fill cl s
      let (rt, s) := fill cr s
      (i, { s with splits := s.splits.set i ⟨(lt, rt), bb, axis⟩ })
  | .leaf face bb =>
      let j := s.j
      (Nat.lor j LEAF_BIT, { s with j := j + 1, leaves := s.leaves.set j ⟨face, bb⟩ })

/-- `Bvh::build` on `F` face bounding boxes: faces are initialised to
`[0..F)`, the temporary tree is built by `bvh_recur`, two tight arrays
are allocated with the counted sizes and `fill` populates them. -/
def bvhBuild (F : Nat) (bbs : Nat → Box) : List BvhSplit × List BvhLeaf :=
  let faces := List.range F
  match bvhRecur bbs faces with
  | none => ([], [])
  | some root =>
      let s0 : FillState :=
        ⟨List.replicate root.countSplits default, List.replicate root.countLeaves default, 0, 0⟩
      ((fill root s0).2.splits, (fill root s0).2.leaves)

/-- The faces of the leaves in depth-first, left-first order. -/
def leafFaces : Node → List Nat
  | .split l r _ _ => leafFaces l ++ leafFaces r
  | .leaf f _ => [f]

/-- The leaf entries in depth-first, left-first order. -/
def leafList : Node → List BvhLeaf
  | .split l r _ _ => leafList l ++ leafList r
  | .leaf f bb => [⟨f, bb⟩]

/-- Writing a run of elements at consecutive indices. -/
def setMany {α : Type} (l : List α) (j : Nat) : List α → List α
  | [] => l
  | e :: es => setMany (l.set j e) (j + 1) es

end BvhModel

/-! ## Definitions used by the C2 comparison -/

namespace BvhModel

/-- Modelled from the spec: "choose the axis with the largest extent
(ties broken `x > y > z`)" — the axis of maximal extent preferring x,
then y, then z when extents tie.  This follows the spec's words and is
compared against the code's `longest_axis`. -/
def specAxisXYZ (d : V3) : Nat :=
  if d.x ≥ d.y ∧ d.x ≥ d.z then 0
  else if d.y ≥ d.z then 1
  else 2

/-- Two face bounding boxes whose centers tie on the x and y extents:
point boxes at the origin and at `(1, 1, 0)`. -/
def cexBbs : Nat → Box := fun i =>
  if i = 0 then Box.fromPoint ⟨0, 0, 0⟩ else Box.fromPoint ⟨1, 1, 0⟩

end BvhModel

/-! ## `u32` modulus shared by the models below -/

/-- `u32` modulus. -/
def U32 : Nat := 2 ^ 32

/-! ## RGB row partition (`crates/render/src/rgb.rs`) -/

namespace RgbModel

/-- `BufPartition`: the dimensions and the atomic `next_row` counter (a
`u32` value).  Concurrency is modelled as a sequential sequence of calls,
which claim C8 is about. -/
structure BufPartition where
  width : Nat
  height : Nat
  next : Nat
deriving DecidableEq, Repr

/-- A returned `Row`: its index `y`, the pixel offset of its slice and
the slice length. -/
structure Row where
  y : Nat
  start : Nat
  len : Nat
deriving DecidableEq, Repr

/-- `Buf::partition()`: counter starts at 0. -/
def partition (width height : Nat) : BufPartition := ⟨width, height, 0⟩

/-- `BufPartition::next_row()`: `fetch_add(1)` returning the old value
`y`; if `y ≥ height`, `fetch_sub(1)` restores the counter and nothing is
returned; otherwise the row slice starts at `(y * width) as usize` and
ends at `((y + 1) * width) as usize` (`u32` arithmetic wraps at `2^32`,
the `usize` subtraction giving the length). -/
def nextRow (p : BufPartition) : Option Row × BufPartition :=
  let y := p.next
  let p1 : BufPartition := { p with next := (p.next + 1) % U32 }
  if y ≥ p.height then
    (none, { p1 with next := (p1.next + (U32 - 1)) % U32 })
  else
    (some ⟨y, y * p.width % U32, (y + 1) % U32 * p.width % U32 - y * p.width % U32⟩, p1)

/-- The partition state after `k` sequential calls to `next_row`. -/
def callsAfter (p : BufPartition) : Nat → BufPartition
  | 0 => p
  | k + 1 => (nextRow (callsAfter p k)).2

end RgbModel

/-! ## Face index validation (`crates/scene/src/crt.rs`, `face`) -/

namespace SceneModel

/-- `u32::wrapping_sub(1)`. -/
def wrapSub1 (v : Nat) : Nat := (v + (U32 - 1)) % U32

/-- The check `face` performs on one parsed `vertex/normal` index pair:
`vi.wrapping_sub(1) < n_v && ni.wrapping_sub(1) < n_n`. -/
def faceIndexOk (nv nn vi ni : Nat) : Bool :=
  decide (wrapSub1 vi < nv) && decide (wrapSub1 ni < nn)

/-- The `face` loop over its three (already numerically parsed) index
pairs: parsing succeeds exactly when every pair passes the bounds check
(a failing pair raises `FaceIndexOutOfBounds`). -/
def faceOk (nv nn : Nat) (idxs : List (Nat × Nat)) : Bool :=
  idxs.all fun p => faceIndexOk nv nn p.1 p.2

end SceneModel

/-! ## Color parsing and pixel conversion (`crates/scene/src/crt.rs`,
`crates/render/src/lib.rs`) -/

namespace ColorModel

/-- The value of one ASCII hex digit, as accepted by
`u8::from_str_radix(_, 16)` (argument is the character code). -/
def hexDigitVal (n : Nat) : Option Nat :=
  if 48 ≤ n ∧ n ≤ 57 then some (n - 48)
  else if 97 ≤ n ∧ n ≤ 102 then some (n - 87)
  else if 65 ≤ n ∧ n ≤ 70 then some (n - 55)
  else none

/-- `u8::from_str_radix` on a two-character slice. -/
def hexPair (a b : Char) : Option Nat := do
  let x ← hexDigitVal a.toNat
  let y ← hexDigitVal b.toNat
  pure (16 * x + y)

/-- `scene::crt::color` on one token: `#` followed by six hex digits
(`s[1..3]`, `s[3..5]`, `s[5..7]` each parsed as a byte), each byte
divided by `255.0`. -/
def colorParse (s : List Char) : Option (ℚ × ℚ × ℚ) :=
  match s with
  | ['#', r1, r2, g1, g2, b1, b2] => do
      let r ← hexPair r1 r2
      let g ← hexPair g1 g2
      let b ← hexPair b1 b2
      pure ((r : ℚ) / 255, (g : ℚ) / 255, (b : ℚ) / 255)
  | _ => none

/-- `render::to_rgb` on one channel:
`(value * 255.0).clamp(0.0, 255.0).round() as u8`.  On the exact values
of this claim no rounding ties arise, so `round` agrees with Rust's
round-half-away-from-zero. -/
def toRgbByte (c : ℚ) : Nat := (round (max 0 (min 255 (c * 255)))).toNat

end ColorModel

/-! ## Scene parser two-pass counting (`crates/scene/src/crt.rs`)

The parser works on whitespace-split tokens, modelled as `List Char`
values.  The numeric value parsers (`f64` and `u32` literals) are
abstract parameters `pf`/`pu`: claim C10 holds for every behaviour of
them, because the token-shape checks (`split_n` on `,` and `/`) are what
keep the filling pass inside the counted region. -/

namespace ParseModel

/-- One whitespace-delimited token. -/
abbrev Token := List Char

/-- Rust `str::split(c)`: the non-empty list of components. -/
def splitChar (c : Char) : Token → List Token
  | [] => [[]]
  | a :: as =>
      match splitChar c as with
      | h :: t => if a = c then [] :: h :: t else (a :: h) :: t
      | [] => [[a]]

def openBrace : Token := "\x7b".data
def closeBrace : Token := "\x7d".data
def kwBackground : Token := "background".data
def kwForeground : Token := "foreground".data
def kwCamera : Token := "camera".data
def kwSphere : Token := "sphere".data
def kwPlane : Token := "plane".data
def kwMesh : Token := "mesh".data
def kwLight : Token := "light".data
def kwPos : Token := "pos".data
def kwLookAt : Token := "look_at".data
def kwUp : Token := "up".data
def kwFocus : Token := "focus".data
def kwDim : Token := "dim".data
def kwRadius : Token := "radius".data
def kwNormal : Token := "normal".data
def kwMaterial : Token := "material".data
def kwData : Token := "data".data
def kwColor : Token := "color".data
def kwDiffuse : Token := "diffuse".data
def kwV : Token := "v".data
def kwVn : Token := "vn".data
def kwF : Token := "f".data

/-- `v64::from_str`: three comma-separated floats (`split_n::<3>(s, ',')`
then `parse::<f64>` on each). -/
def vec64 (pf : Token → Option ℚ) (t : Token) : Option Unit :=
  match splitChar ',' t with
  | [a, b, c] =>
      match pf a, pf b, pf c with
      | some _, some _, some _ => some ()
      | _, _, _ => none
  | _ => none

/-- `dim`: `split_n::<2>(t, 'x')` then `parse::<f64>` on each. -/
def dim64 (pf : Token → Option ℚ) (t : Token) : Option Unit :=
  match splitChar 'x' t with
  | [a, b] =>
      match pf a, pf b with
      | some _, some _ => some ()
      | _, _ => none
  | _ => none

/-- One `vertex/normal` component of a face token:
`split_n::<2>(f, '/')`, `parse::<u32>` on both, then the wrapping bounds
check of `face`. -/
def faceIdxOk (pu : Token → Option Nat) (nv nn : Nat) (t : Token) : Option Unit :=
  match splitChar '/' t with
  | [a, b] =>
      match pu a, pu b with
      | some vi, some ni =>
          if SceneModel.wrapSub1 vi < nv ∧ SceneModel.wrapSub1 ni < nn then some ()
          else none
      | _, _ => none
  | _ => none

/-- `color(p)`: consume one token, parse it as `#rrggbb`. -/
def colorV (ts : List Token) : Option Nat :=
  match ts with
  | t :: _ => (ColorModel.colorParse t).map fun _ => 1
  | [] => none

/-- `scalar(p)`: consume one token, parse it as `f64`. -/
def scalarV (pf : Token → Option ℚ) (ts : List Token) : Option Nat :=
  match ts with
  | t :: _ => (pf t).map fun _ => 1
  | [] => none

/-- `vector(p)`: consume one token, parse it as `v64`. -/
def vectorV (pf : Token → Option ℚ) (ts : List Token) : Option Nat :=
  match ts with
  | t :: _ => (vec64 pf t).map fun _ => 1
  | [] => none

/-- `dim(p)`: consume one token, parse it as `FxF`. -/
def dimV (pf : Token → Option ℚ) (ts : List Token) : Option Nat :=
  match ts with
  | t :: _ => (dim64 pf t).map fun _ => 1
  | [] => none

/-- The `material` key loop (`while !p.at("…")`, dispatch on
`color`/`diffuse`).  Every parser returns the number of tokens it
consumed, `none` aborting the whole parse. -/
def materialLoop (pf : Token → Option ℚ) : List Token → Option Nat
  | [] => none
  | t :: rest =>
      if t = closeBrace then some 0
      else if t = kwColor then
        match colorV rest with
        | some n => (materialLoop pf (rest.drop n)).map fun m => 1 + n + m
        | none => none
      else if t = kwDiffuse then
        match scalarV pf rest with
        | some n => (materialLoop pf (rest.drop n)).map fun m => 1 + n + m
        | none => none
      else none
termination_by ts => ts.length
decreasing_by all_goals simp [List.length_drop]; omega

/-- `material(p, …)`: expect the opening brace, run the key loop, expect
the closing brace. -/
def materialN (pf : Token → Option ℚ) (ts : List Token) : Option Nat :=
  match ts with
  | t :: rest =>
      if t = openBrace then
        match materialLoop pf rest with
        | some m =>
            match rest.drop m with
            | u :: _ => if u = closeBrace then some (1 + m + 1) else none
            | [] => none
        | none => none
      else none
  | [] => none

/-- The `camera` key loop. -/
def cameraLoop (pf : Token → Option ℚ) : List Token → Option Nat
  | [] => none
  | t :: rest =>
      if t = closeBrace then some 0
      else if t = kwPos ∨ t = kwLookAt ∨ t = kwUp then
        match vectorV pf rest with
        | some n => (cameraLoop pf (rest.drop n)).map fun m => 1 + n + m
        | none => none
      else if t = kwFocus then
        match scalarV pf rest with
        | some n => (cameraLoop pf (rest.drop n)).map fun m => 1 + n + m
        | none => none
      else if t = kwDim then
        match dimV pf rest with
        | some n => (cameraLoop pf (rest.drop n)).map fun m => 1 + n + m
        | none => none
      else none
termination_by ts => ts.length
decreasing_by all_goals simp [List.length_drop]; omega

/-- `camera(p, …)`. -/
def cameraN (pf : Token → Option ℚ) (ts : List Token) : Option Nat :=
  match ts with
  | t :: rest =>
      if t = openBrace then
        match cameraLoop pf rest with
        | some m =>
            match rest.drop m with
            | u :: _ => if u = closeBrace then some (1 + m + 1) else none
            | [] => none
        | none => none
      else none
  | [] => none

/-- The `sphere` key loop (`pos`/`radius`/`material`). -/
def sphereLoop (pf : Token → Option ℚ) : List Token → Option Nat
  | [] => none
  | t :: rest =>
      if t = closeBrace then some 0
      else if t = kwPos then
        match vectorV pf rest with
        | some n => (sphereLoop pf (rest.drop n)).map fun m => 1 + n + m
        | none => none
      else if t = kwRadius then
        match scalarV pf rest with
        | some n => (sphereLoop pf (rest.drop n)).map fun m => 1 + n + m
        | none => none
      else if t = kwMaterial then
        match materialN pf rest with
        | some n => (sphereLoop pf (rest.drop n)).map fun m => 1 + n + m
        | none => none
      else none
termination_by ts => ts.length
decreasing_by all_goals simp [List.length_drop]; omega

/-- `sphere(p, …)`. -/
def sphereN (pf : Token → Option ℚ) (ts : List Token) : Option Nat :=
  match ts with
  | t :: rest =>
      if t = openBrace then
        match sphereLoop pf rest with
        | some m =>
            match rest.drop m with
            | u :: _ => if u = closeBrace then some (1 + m + 1) else none
            | [] => none
        | none => none
      else none
  | [] => none

/-- The `plane` key loop (`pos`/`normal`/`material`). -/
def planeLoop (pf : Token → Option ℚ) : List Token → Option Nat
  | [] => none
  | t :: rest =>
      if t = closeBrace then some 0
      else if t = kwPos ∨ t = kwNormal then
        match vectorV pf rest with
        | some n => (planeLoop pf (rest.drop n)).map fun m => 1 + n + m
        | none => none
      else if t = kwMaterial then
        match materialN pf rest with
        | some n => (planeLoop pf (rest.drop n)).map fun m => 1 + n + m
        | none => none
      else none
termination_by ts => ts.length
decreasing_by all_goals simp [List.length_drop]; omega

/-- `plane(p, …)`. -/
def planeN (pf : Token → Option ℚ) (ts : List Token) : Option Nat :=
  match ts with
  | t :: rest =>
      if t = openBrace then
        match planeLoop pf rest with
        | some m =>
            match rest.drop m with
            | u :: _ => if u = closeBrace then some (1 + m + 1) else none
            | [] => none
        | none => none
      else none
  | [] => none

/-- The `light` key loop (`color`/`pos`). -/
def lightLoop (pf : Token → Option ℚ) : List Token → Option Nat
  | [] => none
  | t :: rest =>
      if t = closeBrace then some 0
      else if t = kwColor then
        match colorV rest with
        | some n => (lightLoop pf (rest.drop n)).map fun m => 1 + n + m
        | none => none
      else if t = kwPos then
        match vectorV pf rest with
        | some n => (lightLoop pf (rest.drop n)).map fun m => 1 + n + m
        | none => none
      else none
termination_by ts => ts.length
decreasing_by all_goals simp [List.length_drop]; omega

/-- `light(p, …)`. -/
def lightN (pf : Token → Option ℚ) (ts : List Token) : Option Nat :=
  match ts with
  | t :: rest =>
      if t = openBrace then
        match lightLoop pf rest with
        | some m =>
            match rest.drop m with
            | u :: _ => if u = closeBrace then some (1 + m + 1) else none
            | [] => none
        | none => none
      else none
  | [] => none

/-- The counting pass cloned inside `mesh.data`: the loop
`match words.next() with Some(brace) | None => break, Some(w) => count`,
counting occurrences of a word before the first closing-brace token (or
the end of input). -/
def countBefore (w : Token) : List Token → Nat
  | [] => 0
  | t :: rest =>
      if t = closeBrace then 0
      else (if t = w then 1 else 0) + countBefore w rest

/-- The result of the `mesh.data` filling loop: tokens consumed, slots of
each kind filled (`v.next()`, `n.next()`, `f.next()` calls), and whether
the loop reached its closing brace without error. -/
structure DataRes where
  consumed : Nat
  nv : Nat
  nn : Nat
  nf : Nat
  ok : Bool
deriving DecidableEq, Repr

/-- The three face component tokens read by `face(p, …)`: consumed count
on success (`p.next()` three times, each component checked). -/
def faceArgs (pu : Token → Option Nat) (nv nn : Nat) : List Token → Option Nat
  | t1 :: t2 :: t3 :: _ =>
      match faceIdxOk pu nv nn t1, faceIdxOk pu nv nn t2, faceIdxOk pu nv nn t3 with
      | some _, some _, some _ => some 3
      | _, _, _ => none
  | _ => none

/-- The `mesh.data` filling loop.  A `v`/`vn` slot is taken only after
its vector parses (the assignment's value operand is evaluated first); an
`f` slot is taken at dispatch (the argument `f.next().unwrap()` is
evaluated before `face` runs), even if the face then fails. -/
def dataLoop (pf : Token → Option ℚ) (pu : Token → Option Nat) (nv nn : Nat) :
    List Token → DataRes
  | [] => ⟨0, 0, 0, 0, false⟩
  | t :: rest =>
      if t = closeBrace then ⟨0, 0, 0, 0, true⟩
      else if t = kwV then
        match vectorV pf rest with
        | none => ⟨1, 0, 0, 0, false⟩
        | some n =>
            let r := dataLoop pf pu nv nn (rest.drop n)
            ⟨1 + n + r.consumed, r.nv + 1, r.nn, r.nf, r.ok⟩
      else if t = kwVn then
        match vectorV pf rest with
        | none => ⟨1, 0, 0, 0, false⟩
        | some n =>
            let r := dataLoop pf pu nv nn (rest.drop n)
            ⟨1 + n + r.consumed, r.nv, r.nn + 1, r.nf, r.ok⟩
      else if t = kwF then
        match faceArgs pu nv nn rest with
        | none => ⟨1, 0, 0, 1, false⟩
        | some n =>
            let r := dataLoop pf pu nv nn (rest.drop n)
            ⟨1 + n + r.consumed, r.nv, r.nn, r.nf + 1, r.ok⟩
      else ⟨1, 0, 0, 0, false⟩
termination_by ts => ts.length
decreasing_by all_goals simp [List.length_drop]; omega

/-- The `data` value of a `mesh`: expect the opening brace, take the
counts over a clone of the stream (allocating the arrays, with the
`usize → u32` casts of the counts feeding the face bounds checks), run
the filling loop, expect the closing brace. -/
def dataSection (pf : Token → Option ℚ) (pu : Token → Option Nat)
    (ts : List Token) : Option Nat :=
  match ts with
  | t :: rest =>
      if t = openBrace then
        let r := dataLoop pf pu (countBefore kwV rest % U32) (countBefore kwVn rest % U32) rest
        if r.ok then
          match rest.drop r.consumed with
          | u :: _ => if u = closeBrace then some (1 + r.consumed + 1) else none
          | [] => none
        else none
      else none
  | [] => none

/-- The `mesh` key loop (`material`/`data`). -/
def meshLoop (pf : Token → Option ℚ) (pu : Token → Option Nat) :
    List Token → Option Nat
  | [] => none
  | t :: rest =>
      if t = closeBrace then some 0
      else if t = kwMaterial then
        match materialN pf rest with
        | some n => (meshLoop pf pu (rest.drop n)).map fun m => 1 + n + m
        | none => none
      else if t = kwData then
        match dataSection pf pu rest with
        | some n => (meshLoop pf pu (rest.drop n)).map fun m => 1 + n + m
        | none => none
      else none
termination_by ts => ts.length
decreasing_by all_goals simp [List.length_drop]; omega

/-- `mesh(p, …)`. -/
def meshN (pf : Token → Option ℚ) (pu : Token → Option Nat)
    (ts : List Token) : Option Nat :=
  match ts with
  | t :: rest =>
      if t = openBrace then
        match meshLoop pf pu rest with
        | some m =>
            match rest.drop m with
            | u :: _ => if u = closeBrace then some (1 + m + 1) else none
            | [] => none
        | none => none
      else none
  | [] => none

/-- The number of occurrences of a word in the whole token stream (the
top-level counting pass of `parse`). -/
def countWord (w : Token) (ts : List Token) : Nat :=
  ts.countP fun t => t = w

/-- The top-level `scene` loop with the slot-fill counters: a
`sphere`/`plane`/`mesh` slot is taken at dispatch (the argument
`….next().unwrap()` is evaluated before the group parser runs); any error
stops the loop with the counters taken so far. -/
def sceneLoop (pf : Token → Option ℚ) (pu : Token → Option Nat)
    (ns np nm : Nat) : List Token → Nat × Nat × Nat
  | [] => (ns, np, nm)
  | t :: rest =>
      if t = kwBackground ∨ t = kwForeground then
        match colorV rest with
        | some n => sceneLoop pf pu ns np nm (rest.drop n)
        | none => (ns, np, nm)
      else if t = kwCamera then
        match cameraN pf rest with
        | some n => sceneLoop pf pu ns np nm (rest.drop n)
        | none => (ns, np, nm)
      else if t = kwSphere then
        match sphereN pf rest with
        | some n => sceneLoop pf pu (ns + 1) np nm (rest.drop n)
        | none => (ns + 1, np, nm)
      else if t = kwPlane then
        match planeN pf rest with
        | some n => sceneLoop pf pu ns (np + 1) nm (rest.drop n)
        | none => (ns, np + 1, nm)
      else if t = kwMesh then
        match meshN pf pu rest with
        | some n => sceneLoop pf pu ns np (nm + 1) (rest.drop n)
        | none => (ns, np, nm + 1)
      else if t = kwLight then
        match lightN pf rest with
        | some n => sceneLoop pf pu ns np nm (rest.drop n)
        | none => (ns, np, nm)
      else (ns, np, nm)
termination_by ts => ts.length
decreasing_by all_goals simp [List.length_drop]; omega

end ParseModel

/-! ## Theorems: claims C1 and C3 -/

namespace MemModel

theorem allocBytes_len_le (m : Mem) (n : Nat) : (m.allocBytes n).2.len ≤ m.len := by
  unfold Mem.allocBytes
  split
  · exact le_rfl
  · exact Nat.sub_le _ _

theorem alignTo_len_le (m : Mem) (a : Nat) : (m.alignTo a).2.len ≤ m.len := by
  unfold Mem.alignTo
  dsimp only
  split
  · rfl
  · exact allocBytes_len_le _ _

theorem alloc_len_le (m : Mem) (s a : Nat) : (m.alloc s a).2.len ≤ m.len := by
  unfold Mem.alloc
  dsimp only
  split
  · exact le_trans (allocBytes_len_le _ _) (alignTo_len_le _ _)
  · exact alignTo_len_le _ _

theorem applyAllocs_len_le (ops : List AllocReq) (m : Mem) :
    (applyAllocs ops m).len ≤ m.len := by
  induction ops generalizing m with
  | nil => simp [applyAllocs]
  | cons op ops ih =>
      calc (applyAllocs (op :: ops) m).len
          = (applyAllocs ops (m.alloc op.size op.align).2).len := rfl
        _ ≤ (m.alloc op.size op.align).2.len := ih _
        _ ≤ m.len := alloc_len_le _ _ _

/-- The aligned cursor computed by `align_to` overshoots the cursor by
less than one alignment, and an already aligned cursor (inside a real
buffer, `addr ≤ 2^64`) is either kept or rejected by the wrap check. -/
theorem aligned_bounds (addr k : Nat) (hk : k ≤ 64) (haddr : addr ≤ USIZE) :
    (addr + (2 ^ k - 1)) % USIZE / 2 ^ k * 2 ^ k < addr + 2 ^ k ∧
    (addr % 2 ^ k = 0 →
      (addr + (2 ^ k - 1)) % USIZE / 2 ^ k * 2 ^ k = addr ∨
      (addr + (2 ^ k - 1)) % USIZE / 2 ^ k * 2 ^ k < addr) := by
  have hpos : 0 < 2 ^ k := Nat.pos_pow_of_pos k (by norm_num)
  constructor
  · calc (addr + (2 ^ k - 1)) % USIZE / 2 ^ k * 2 ^ k
        ≤ (addr + (2 ^ k - 1)) % USIZE := Nat.div_mul_le_self _ _
      _ ≤ addr + (2 ^ k - 1) := Nat.mod_le _ _
      _ < addr + 2 ^ k := by omega
  · intro hal
    obtain ⟨q, hq⟩ : 2 ^ k ∣ addr := Nat.dvd_of_mod_eq_zero hal
    by_cases hlt : addr + (2 ^ k - 1) < USIZE
    · left
      rw [Nat.mod_eq_of_lt hlt, hq, Nat.mul_comm (2 ^ k) q,
        Nat.add_comm (q * 2 ^ k), Nat.add_mul_div_right _ _ hpos,
        Nat.div_eq_of_lt (by omega), Nat.zero_add]
    · right
      have hdvdU : 2 ^ k ∣ USIZE := Nat.pow_dvd_pow 2 hk
      have haddrU : addr = USIZE := by
        have hsub : 2 ^ k ∣ USIZE - addr :=
          Nat.dvd_sub' hdvdU (Nat.dvd_of_mod_eq_zero hal)
        have : USIZE - addr = 0 := Nat.eq_zero_of_dvd_of_lt hsub (by omega)
        omega
      have hU : 0 < USIZE := by unfold USIZE; positivity
      calc (addr + (2 ^ k - 1)) % USIZE / 2 ^ k * 2 ^ k
          ≤ (addr + (2 ^ k - 1)) % USIZE := Nat.div_mul_le_self _ _
        _ < USIZE := Nat.mod_lt _ hU
        _ ≤ addr := le_of_eq haddrU.symm

/-- The branches of `alloc` spelled out: failure on the wrap check, on the
padding reservation, or on the size reservation (keeping the padding). -/
theorem alloc_eq (m : Mem) (size align : Nat) :
    m.alloc size align =
      if (m.addr + (align - 1)) % USIZE / align * align < m.addr then (false, m)
      else if m.len < (m.addr + (align - 1)) % USIZE / align * align - m.addr then
        (false, m)
      else if m.len - ((m.addr + (align - 1)) % USIZE / align * align - m.addr)
          < size then
        (false, ⟨m.addr + ((m.addr + (align - 1)) % USIZE / align * align - m.addr),
          m.len - ((m.addr + (align - 1)) % USIZE / align * align - m.addr)⟩)
      else
        (true, ⟨m.addr + ((m.addr + (align - 1)) % USIZE / align * align - m.addr) + size,
          m.len - ((m.addr + (align - 1)) % USIZE / align * align - m.addr) - size⟩) := by
  simp only [Mem.alloc, Mem.alignTo, Mem.allocBytes]
  split_ifs <;> simp_all

end MemModel

/-- C1: the claim says a failing `alloc` leaves `free()` unchanged, but in
the source `align_to` consumes the alignment padding before the size
reservation is attempted, so a subsequent `Oom` keeps the padding
consumed.  With one free byte at the odd address 1, allocating a value of
size 2 and alignment 2 fails with `Oom`, yet `free()` drops from 1 to 0. -/
theorem c1_counterexample :
    (MemModel.Mem.alloc ⟨1, 1⟩ 2 2).1 = false ∧
    (MemModel.Mem.alloc ⟨1, 1⟩ 2 2).2.free ≠ (⟨1, 1⟩ : MemModel.Mem).free := by
  decide

/-- C1 (amended): when `alloc` for a type of the given size and alignment
`2^k` fails with `Oom`, the observable cursor may move only by the
alignment padding: `free()` never increases, decreases by strictly less
than the alignment, and is exactly unchanged whenever the cursor was
already aligned. -/
theorem c1_alloc_oom_free (m : MemModel.Mem) (size k : Nat) (hk : k ≤ 64)
    (hbuf : m.addr + m.len ≤ MemModel.USIZE)
    (hfail : (m.alloc size (2 ^ k)).1 = false) :
    (m.alloc size (2 ^ k)).2.free ≤ m.free ∧
    m.free < (m.alloc size (2 ^ k)).2.free + 2 ^ k ∧
    (m.addr % 2 ^ k = 0 → (m.alloc size (2 ^ k)).2.free = m.free) := by
  have hpos : 0 < 2 ^ k := Nat.pos_pow_of_pos k (by norm_num)
  obtain ⟨hover, hkeep⟩ :=
    MemModel.aligned_bounds m.addr k hk (by omega)
  rw [MemModel.alloc_eq] at hfail ⊢
  split_ifs at hfail ⊢ with h1 h2 h3
  · exact ⟨le_rfl, by show m.free < m.free + 2 ^ k; omega, fun _ => rfl⟩
  · exact ⟨le_rfl, by show m.free < m.free + 2 ^ k; omega, fun _ => rfl⟩
  · refine ⟨?_, ?_, fun hal => ?_⟩
    · show m.len - _ ≤ m.free
      exact Nat.sub_le _ _
    · show m.free < m.len - _ + 2 ^ k
      simp only [MemModel.Mem.free]
      omega
    · show m.len - _ = m.free
      rcases hkeep hal with h | h
      · simp only [MemModel.Mem.free]
        omega
      · omega

/-- C1 witness: allocating 5 bytes (alignment `2^2`) from an aligned
3-byte region fails and leaves `free()` untouched. -/
theorem c1_witness :
    (2 : Nat) ≤ 64 ∧
    (MemModel.Mem.addr ⟨0, 3⟩ + MemModel.Mem.len ⟨0, 3⟩ ≤ MemModel.USIZE) ∧
    ((MemModel.Mem.alloc ⟨0, 3⟩ 5 (2 ^ 2)).1 = false) ∧
    ((MemModel.Mem.alloc ⟨0, 3⟩ 5 (2 ^ 2)).2.free ≤ (⟨0, 3⟩ : MemModel.Mem).free ∧
      (⟨0, 3⟩ : MemModel.Mem).free
        < (MemModel.Mem.alloc ⟨0, 3⟩ 5 (2 ^ 2)).2.free + 2 ^ 2 ∧
      (MemModel.Mem.addr ⟨0, 3⟩ % 2 ^ 2 = 0 →
        (MemModel.Mem.alloc ⟨0, 3⟩ 5 (2 ^ 2)).2.free = (⟨0, 3⟩ : MemModel.Mem).free)) :=
  ⟨by decide, by decide, by decide,
    c1_alloc_oom_free ⟨0, 3⟩ 5 2 (by decide) (by decide) (by decide)⟩

/-- C3: after `with_scratch(s, f)` returns, the parent's `free()` equals
its pre-call value minus the bytes consumed by the parent's own
allocations during the scope; the scratch suffix itself is returned to
the parent in full. -/
theorem c3_with_scratch_free (m : MemModel.Mem) (s : Nat) (ops : List MemModel.AllocReq)
    (hs : s ≤ m.free) :
    (m.withScratch s ops).free
      = m.free - ((m.free - s) - (MemModel.applyAllocs ops ⟨m.addr, m.free - s⟩).len) := by
  have h := MemModel.applyAllocs_len_le ops ⟨m.addr, m.free - s⟩
  simp only [MemModel.Mem.withScratch, MemModel.Mem.free] at *
  omega

/-- C3 witness: a 4-byte region, a 2-byte scratch and a body performing a
single 1-byte allocation on the parent: `free()` goes from 4 to 3. -/
theorem c3_witness :
    (2 : Nat) ≤ (⟨0, 4⟩ : MemModel.Mem).free ∧
    (MemModel.Mem.withScratch ⟨0, 4⟩ 2 [⟨1, 1⟩]).free
      = (⟨0, 4⟩ : MemModel.Mem).free -
        (((⟨0, 4⟩ : MemModel.Mem).free - 2) -
          (MemModel.applyAllocs [⟨1, 1⟩] ⟨0, (⟨0, 4⟩ : MemModel.Mem).free - 2⟩).len) :=
  ⟨by decide, c3_with_scratch_free ⟨0, 4⟩ 2 [⟨1, 1⟩] (by decide)⟩


/-! ## Theorems: BVH helpers -/

namespace BvhModel

theorem sortFaces_perm (bbs : Nat → Box) (faces : List Nat) :
    (sortFaces bbs faces).Perm faces :=
  List.perm_insertionSort _ _

theorem sortFaces_length (bbs : Nat → Box) (faces : List Nat) :
    (sortFaces bbs faces).length = faces.length :=
  (sortFaces_perm bbs faces).length_eq

/-- `longest_axis` picks an axis of maximal extent, and every axis after
the chosen one has strictly smaller extent (ties go to the later axis). -/
theorem longestAxis_max (b : Box) :
    (∀ i < 3, b.diag.get i ≤ b.diag.get b.longestAxis) ∧
    (∀ i < 3, b.longestAxis < i → b.diag.get i < b.diag.get b.longestAxis) := by
  unfold Box.longestAxis
  dsimp only
  split_ifs with h1 h2
  · constructor
    · intro i hi
      interval_cases i <;> simp [V3.get] <;> linarith [h1.1, h1.2]
    · intro i hi h0
      interval_cases i <;> simp [V3.get] at * <;> linarith [h1.1, h1.2]
  · constructor
    · intro i hi
      rw [Classical.not_and_iff_or_not_not] at h1
      interval_cases i <;> simp [V3.get] <;> rcases h1 with h | h <;> push_neg at h <;> linarith
    · intro i hi h0
      interval_cases i
      simp only [V3.get] at *
      linarith
  · constructor
    · intro i hi
      rw [Classical.not_and_iff_or_not_not] at h1
      push_neg at h2
      interval_cases i <;> simp [V3.get] <;> rcases h1 with h | h <;> push_neg at h <;> linarith
    · intro i hi h0
      omega

theorem bvhRecur_cons_cons (bbs : Nat → Box) (a b : Nat) (rest : List Nat) :
    bvhRecur bbs (a :: b :: rest) =
      match bvhRecur bbs ((sortFaces bbs (a :: b :: rest)).take ((a :: b :: rest).length / 2)),
          bvhRecur bbs ((sortFaces bbs (a :: b :: rest)).drop ((a :: b :: rest).length / 2)) with
      | some l, some r =>
          some (.split l r (l.boundingBox.union r.boundingBox) (splitAxis bbs (a :: b :: rest)))
      | _, _ => none := by
  rw [bvhRecur]

theorem leafList_length (t : Node) : (leafList t).length = t.countLeaves := by
  induction t with
  | split l r bb axis ihl ihr => simp [leafList, Node.countLeaves, ihl, ihr]
  | leaf f bb => simp [leafList, Node.countLeaves]

theorem leafFaces_eq_map (t : Node) : leafFaces t = (leafList t).map BvhLeaf.face := by
  induction t with
  | split l r bb axis ihl ihr => simp [leafFaces, leafList, ihl, ihr]
  | leaf f bb => simp [leafFaces, leafList]

/-- The main induction: on a non-empty slice, `bvh_recur` succeeds, its
leaves are a permutation of the slice, and its depth is at most
`⌈log₂ len⌉ + 1`. -/
theorem bvhRecur_spec (bbs : Nat → Box) :
    ∀ n (faces : List Nat), faces.length ≤ n → faces ≠ [] →
      ∃ t, bvhRecur bbs faces = some t ∧
        (leafFaces t).Perm faces ∧
        t.depth ≤ Nat.clog 2 faces.length + 1 := by
  intro n
  induction n with
  | zero =>
      intro faces h hne
      cases faces with
      | nil => exact absurd rfl hne
      | cons a l => simp at h
  | succ n ih =>
      intro faces hlen hne
      match faces with
      | [] => exact absurd rfl hne
      | [f] =>
          refine ⟨.leaf f (bbs f), by rw [bvhRecur], by simp [leafFaces], ?_⟩
          simp [Node.depth]
      | a :: b :: rest =>
          have hslen : (sortFaces bbs (a :: b :: rest)).length = (a :: b :: rest).length :=
            sortFaces_length bbs _
          have hN2 : 2 ≤ (a :: b :: rest).length := by simp
          have htake_len :
              ((sortFaces bbs (a :: b :: rest)).take ((a :: b :: rest).length / 2)).length
                = (a :: b :: rest).length / 2 := by
            simp [List.length_take, hslen]
            omega
          have hdrop_len :
              ((sortFaces bbs (a :: b :: rest)).drop ((a :: b :: rest).length / 2)).length
                = (a :: b :: rest).length - (a :: b :: rest).length / 2 := by
            simp [List.length_drop, hslen]
          obtain ⟨tl, hl, hpl, hdl⟩ :=
            ih ((sortFaces bbs (a :: b :: rest)).take ((a :: b :: rest).length / 2))
              (by simp only [List.length_cons] at *; omega)
              (List.length_pos.mp (by
                rw [htake_len]
                simp only [List.length_cons]
                omega))
          obtain ⟨tr, hr, hpr, hdr⟩ :=
            ih ((sortFaces bbs (a :: b :: rest)).drop ((a :: b :: rest).length / 2))
              (by simp only [List.length_cons] at *; omega)
              (List.length_pos.mp (by
                rw [hdrop_len]
                simp only [List.length_cons]
                omega))
          refine ⟨.split tl tr (tl.boundingBox.union tr.boundingBox)
            (splitAxis bbs (a :: b :: rest)), ?_, ?_, ?_⟩
          · rw [bvhRecur_cons_cons, hl, hr]
          · show ((leafFaces tl ++ leafFaces tr).Perm (a :: b :: rest))
            refine ((hpl.append hpr).trans ?_).trans (sortFaces_perm bbs _)
            rw [List.take_append_drop]
          · show 1 + max tl.depth tr.depth ≤ Nat.clog 2 (a :: b :: rest).length + 1
            rw [htake_len] at hdl
            rw [hdrop_len] at hdr
            have hmono :
                Nat.clog 2 ((a :: b :: rest).length / 2)
                  ≤ Nat.clog 2 ((a :: b :: rest).length - (a :: b :: rest).length / 2) :=
              Nat.clog_mono_right 2 (by omega)
            have hrec :
                Nat.clog 2 (a :: b :: rest).length
                  = Nat.clog 2 (((a :: b :: rest).length + 1) / 2) + 1 :=
              Nat.clog_of_two_le (by norm_num) hN2
            have hceil :
                (a :: b :: rest).length - (a :: b :: rest).length / 2
                  = ((a :: b :: rest).length + 1) / 2 := by omega
            have hmax : max tl.depth tr.depth
                ≤ Nat.clog 2 (((a :: b :: rest).length + 1) / 2) + 1 := by
              apply max_le
              · exact le_trans hdl (by rw [← hceil]; omega)
              · exact le_trans hdr (by rw [← hceil])
            omega

end BvhModel

/-! ## Theorems: `fill` and the flat leaf array -/

namespace BvhModel

theorem setMany_append {α : Type} (l : List α) (j : Nat) (es fs : List α) :
    setMany l j (es ++ fs) = setMany (setMany l j es) (j + es.length) fs := by
  induction es generalizing l j with
  | nil => simp [setMany]
  | cons e es ih =>
      show setMany (l.set j e) (j + 1) (es ++ fs) = _
      rw [ih]
      simp [setMany, Nat.add_assoc, Nat.add_comm 1 es.length]

theorem setMany_cons_succ {α : Type} (a : α) (l : List α) (j : Nat) (es : List α) :
    setMany (a :: l) (j + 1) es = a :: setMany l j es := by
  induction es generalizing a l j with
  | nil => rfl
  | cons e es ih =>
      show setMany ((a :: l).set (j + 1) e) (j + 2) es = _
      rw [List.set_cons_succ]
      rw [ih]
      rfl

theorem setMany_eq_self {α : Type} (es l : List α) (h : es.length = l.length) :
    setMany l 0 es = es := by
  induction es generalizing l with
  | nil => cases l <;> simp_all [setMany]
  | cons e es ih =>
      cases l with
      | nil => simp at h
      | cons x l =>
          show setMany ((x :: l).set 0 e) 1 es = _
          rw [List.set_cons_zero, setMany_cons_succ]
          simp only [List.length_cons] at h
          rw [ih l (by omega)]

/-- Effect of `fill` on the leaf array and the leaf index: the leaves of
the subtree are written at consecutive indices starting at `idx.1`. -/
theorem fill_state (t : Node) (s : FillState) :
    (fill t s).2.j = s.j + t.countLeaves ∧
    (fill t s).2.leaves = setMany s.leaves s.j (leafList t) := by
  induction t generalizing s with
  | leaf f bb =>
      simp [fill, Node.countLeaves, leafList, setMany]
  | split l r bb axis ihl ihr =>
      rcases h1 : fill l { s with i := s.i + 1 } with ⟨lt, s2⟩
      rcases h2 : fill r s2 with ⟨rt, s3⟩
      obtain ⟨hjl, hll⟩ := ihl { s with i := s.i + 1 }
      rw [h1] at hjl hll
      dsimp only at hjl hll
      obtain ⟨hjr, hlr⟩ := ihr s2
      rw [h2] at hjr hlr
      dsimp only at hjr hlr
      simp only [fill, h1, h2]
      constructor
      · simp only [Node.countLeaves, hjr, hjl]
        omega
      · simp only [leafList]
        rw [setMany_append, hlr, hll, hjl, leafList_length]

end BvhModel

/-! ## Theorems: claims C2, C4 and C7 -/

namespace BvhModel

theorem cexBbs_centersBox : centersBox cexBbs [0, 1] = ⟨⟨0, 0, 0⟩, ⟨1, 1, 0⟩⟩ := by
  norm_num [centersBox, cexBbs, Box.fromPoint, Box.center, Box.diag, Box.union,
    V3.add, V3.sub, V3.div, List.foldl]

theorem cexBbs_splitAxis : splitAxis cexBbs [0, 1] = 1 := by
  norm_num [splitAxis, centersBox, cexBbs, Box.fromPoint, Box.center, Box.diag, Box.union,
    Box.longestAxis, V3.add, V3.sub, V3.div, List.foldl]

theorem cexBbs_sort : sortFaces cexBbs [0, 1] = [0, 1] := by
  norm_num [sortFaces, List.insertionSort, List.orderedInsert, faceKey,
    centersBox, cexBbs, Box.fromPoint, Box.center, Box.diag, Box.union, Box.longestAxis,
    V3.add, V3.sub, V3.div, V3.get, List.foldl, splitAxis]

theorem cexBbs_recur : bvhRecur cexBbs [0, 1] =
    some (.split (.leaf 0 (cexBbs 0)) (.leaf 1 (cexBbs 1))
      ((Node.leaf 0 (cexBbs 0)).boundingBox.union (Node.leaf 1 (cexBbs 1)).boundingBox)
      (splitAxis cexBbs [0, 1])) := by
  rw [bvhRecur_cons_cons]
  norm_num [cexBbs_sort]
  rw [show bvhRecur cexBbs [0] = some (.leaf 0 (cexBbs 0)) from by rw [bvhRecur],
    show bvhRecur cexBbs [1] = some (.leaf 1 (cexBbs 1)) from by rw [bvhRecur]]

end BvhModel

/-- C2: the claim says center-extent ties are broken `x > y > z`, but
`longest_axis` uses strict comparisons, so ties fall through to the later
axis.  On two faces whose centers are `(0,0,0)` and `(1,1,0)` the x and y
extents tie for the maximum; the spec's tie-break picks x (axis 0) while
`bvh_recur` builds the root split on axis 1 (y). -/
theorem c2_counterexample :
    (∃ l r bb, BvhModel.bvhRecur BvhModel.cexBbs [0, 1]
        = some (BvhModel.Node.split l r bb 1)) ∧
    (BvhModel.centersBox BvhModel.cexBbs [0, 1]).diag.get 0
      = (BvhModel.centersBox BvhModel.cexBbs [0, 1]).diag.get 1 ∧
    (∀ i < 3, (BvhModel.centersBox BvhModel.cexBbs [0, 1]).diag.get i
      ≤ (BvhModel.centersBox BvhModel.cexBbs [0, 1]).diag.get 0) ∧
    BvhModel.specAxisXYZ (BvhModel.centersBox BvhModel.cexBbs [0, 1]).diag = 0 := by
  refine ⟨?_, ?_, ?_, ?_⟩
  · exact ⟨BvhModel.Node.leaf 0 (BvhModel.cexBbs 0), BvhModel.Node.leaf 1 (BvhModel.cexBbs 1),
      (BvhModel.Node.leaf 0 (BvhModel.cexBbs 0)).boundingBox.union
        (BvhModel.Node.leaf 1 (BvhModel.cexBbs 1)).boundingBox,
      by rw [BvhModel.cexBbs_recur, BvhModel.cexBbs_splitAxis]⟩
  · rw [BvhModel.cexBbs_centersBox]
    norm_num [BvhModel.Box.diag, BvhModel.V3.sub, BvhModel.V3.get]
  · intro i hi
    rw [BvhModel.cexBbs_centersBox]
    interval_cases i <;> norm_num [BvhModel.Box.diag, BvhModel.V3.sub, BvhModel.V3.get]
  · rw [BvhModel.cexBbs_centersBox]
    norm_num [BvhModel.specAxisXYZ, BvhModel.Box.diag, BvhModel.V3.sub]

/-- C2 (amended): at every recursion step on a slice of two or more
faces, the chosen split axis attains the maximal extent of the bounding
box of the face centers, and ties between axes are broken preferring z
over y over x (every axis after the chosen one is strictly smaller). -/
theorem c2_split_axis (bbs : Nat → BvhModel.Box) (faces : List Nat)
    (h2 : 2 ≤ faces.length) :
    (∃ l r bb, BvhModel.bvhRecur bbs faces
        = some (BvhModel.Node.split l r bb (BvhModel.splitAxis bbs faces))) ∧
    (∀ i < 3, (BvhModel.centersBox bbs faces).diag.get i
        ≤ (BvhModel.centersBox bbs faces).diag.get (BvhModel.splitAxis bbs faces)) ∧
    (∀ i < 3, BvhModel.splitAxis bbs faces < i →
      (BvhModel.centersBox bbs faces).diag.get i
        < (BvhModel.centersBox bbs faces).diag.get (BvhModel.splitAxis bbs faces)) := by
  refine ⟨?_, (BvhModel.longestAxis_max _).1, (BvhModel.longestAxis_max _).2⟩
  match faces, h2 with
  | a :: b :: rest, _ =>
      have hslen := BvhModel.sortFaces_length bbs (a :: b :: rest)
      have htake_len :
          ((BvhModel.sortFaces bbs (a :: b :: rest)).take
            ((a :: b :: rest).length / 2)).length = (a :: b :: rest).length / 2 := by
        simp [List.length_take, hslen]
        omega
      have hdrop_len :
          ((BvhModel.sortFaces bbs (a :: b :: rest)).drop
            ((a :: b :: rest).length / 2)).length
            = (a :: b :: rest).length - (a :: b :: rest).length / 2 := by
        simp [List.length_drop, hslen]
      obtain ⟨tl, hl, -, -⟩ :=
        BvhModel.bvhRecur_spec bbs (a :: b :: rest).length
          ((BvhModel.sortFaces bbs (a :: b :: rest)).take ((a :: b :: rest).length / 2))
          (by rw [htake_len]; omega)
          (List.length_pos.mp (by
            rw [htake_len]
            simp only [List.length_cons]
            omega))
      obtain ⟨tr, hr, -, -⟩ :=
        BvhModel.bvhRecur_spec bbs (a :: b :: rest).length
          ((BvhModel.sortFaces bbs (a :: b :: rest)).drop ((a :: b :: rest).length / 2))
          (by rw [hdrop_len]; omega)
          (List.length_pos.mp (by
            rw [hdrop_len]
            simp only [List.length_cons]
            omega))
      exact ⟨tl, tr, _, by rw [BvhModel.bvhRecur_cons_cons, hl, hr]⟩

/-- C2 witness: on the two tying faces the amended statement holds with
the chosen axis `splitAxis cexBbs [0,1] = 1`. -/
theorem c2_witness :
    2 ≤ ([0, 1] : List Nat).length ∧
    ((∃ l r bb, BvhModel.bvhRecur BvhModel.cexBbs [0, 1]
        = some (BvhModel.Node.split l r bb (BvhModel.splitAxis BvhModel.cexBbs [0, 1]))) ∧
    (∀ i < 3, (BvhModel.centersBox BvhModel.cexBbs [0, 1]).diag.get i
        ≤ (BvhModel.centersBox BvhModel.cexBbs [0, 1]).diag.get
            (BvhModel.splitAxis BvhModel.cexBbs [0, 1])) ∧
    (∀ i < 3, BvhModel.splitAxis BvhModel.cexBbs [0, 1] < i →
      (BvhModel.centersBox BvhModel.cexBbs [0, 1]).diag.get i
        < (BvhModel.centersBox BvhModel.cexBbs [0, 1]).diag.get
            (BvhModel.splitAxis BvhModel.cexBbs [0, 1]))) :=
  ⟨by decide, c2_split_axis BvhModel.cexBbs [0, 1] (by decide)⟩

/-- C4: for every BVH built from `F ≥ 1` face bounding boxes, the flat
leaf array has length `F` and its face indices are a permutation of
`[0, F)`. -/
theorem c4_leaves_perm (F : Nat) (bbs : Nat → BvhModel.Box) (hF : 1 ≤ F) :
    (BvhModel.bvhBuild F bbs).2.length = F ∧
    ((BvhModel.bvhBuild F bbs).2.map BvhModel.BvhLeaf.face).Perm (List.range F) := by
  obtain ⟨t, ht, hperm, -⟩ :=
    BvhModel.bvhRecur_spec bbs F (List.range F) (by simp)
      (List.length_pos.mp (by simp; omega))
  have hlen_faces : (BvhModel.leafFaces t).length = F := by
    simpa using hperm.length_eq
  have hcount : t.countLeaves = F := by
    rw [← BvhModel.leafList_length]
    rw [BvhModel.leafFaces_eq_map] at hlen_faces
    simpa using hlen_faces
  simp only [BvhModel.bvhBuild, ht]
  obtain ⟨-, hleaves⟩ := BvhModel.fill_state t
    ⟨List.replicate t.countSplits default, List.replicate t.countLeaves default, 0, 0⟩
  dsimp only at hleaves
  rw [hleaves, BvhModel.setMany_eq_self _ _ (by simp [BvhModel.leafList_length])]
  refine ⟨by rw [BvhModel.leafList_length, hcount], ?_⟩
  rw [← BvhModel.leafFaces_eq_map]
  exact hperm

/-- C4 witness: a two-face build yields two leaves permuting `[0, 2)`. -/
theorem c4_witness :
    1 ≤ 2 ∧
    ((BvhModel.bvhBuild 2 BvhModel.cexBbs).2.length = 2 ∧
      ((BvhModel.bvhBuild 2 BvhModel.cexBbs).2.map BvhModel.BvhLeaf.face).Perm
        (List.range 2)) :=
  ⟨by decide, c4_leaves_perm 2 BvhModel.cexBbs (by decide)⟩

/-- C7: for every BVH built from `F ≥ 1` face bounding boxes, the depth
of the temporary tree (the longest root-to-leaf chain of nodes, which the
flat arrays mirror) is at most `⌈log₂ F⌉ + 1`; in particular it never
exceeds the 64 assumed by the traversal stack (faces are indexed by
`u32`, so `F ≤ 2^32 ≤ 2^63`). -/
theorem c7_depth_le (F : Nat) (bbs : Nat → BvhModel.Box) (hF : 1 ≤ F) :
    ∃ t, BvhModel.bvhRecur bbs (List.range F) = some t ∧
      t.depth ≤ Nat.clog 2 F + 1 ∧ (F ≤ 2 ^ 63 → t.depth ≤ 64) := by
  obtain ⟨t, ht, -, hd⟩ :=
    BvhModel.bvhRecur_spec bbs F (List.range F) (by simp)
      (List.length_pos.mp (by simp; omega))
  rw [List.length_range] at hd
  refine ⟨t, ht, hd, fun h63 => ?_⟩
  have hle : Nat.clog 2 F ≤ 63 := (Nat.le_pow_iff_clog_le (by norm_num)).mp h63
  omega

/-- C7 witness: the one-face build has depth 1 ≤ 1 ≤ 64. -/
theorem c7_witness :
    1 ≤ 1 ∧
    (∃ t, BvhModel.bvhRecur BvhModel.cexBbs (List.range 1) = some t ∧
      t.depth ≤ Nat.clog 2 1 + 1 ∧ (1 ≤ 2 ^ 63 → t.depth ≤ 64)) :=
  ⟨le_rfl, c7_depth_le 1 BvhModel.cexBbs le_rfl⟩

/-! ## Theorems: claims C8, C6 and C9 -/

namespace RgbModel

/-- Sequentially, the cursor after `k` calls is `min k H`: it never
exceeds the height, and exhausted calls restore it. -/
theorem callsAfter_eq (W H : Nat) (hH : H < U32) (k : Nat) :
    callsAfter (partition W H) k = ⟨W, H, min k H⟩ := by
  induction k with
  | zero => simp [callsAfter, partition]
  | succ k ih =>
      show (nextRow (callsAfter (partition W H) k)).2 = _
      rw [ih]
      unfold nextRow
      dsimp only
      by_cases h : min k H ≥ H
      · rw [if_pos h]
        have hmin : min k H = H := by omega
        simp only [BufPartition.mk.injEq, hmin, true_and]
        simp only [U32] at *
        omega
      · rw [if_neg h]
        simp only [BufPartition.mk.injEq, true_and]
        simp only [U32] at *
        omega

end RgbModel

/-- C8: in a sequential sequence of `next_row` calls on a fresh partition
of height `H` and width `W` (with `H`, `H·W` in `u32` range, as for any
real buffer), the `k`-th call for `k < H` returns row `k` with offset
`k·W` and length `W` and advances the cursor to `k + 1`; every call from
the `H`-th on returns nothing and leaves the cursor restored at `H`, so
subsequent calls also return nothing. -/
theorem c8_next_row (W H k : Nat) (hH : H < U32) (hWH : H * W < U32) :
    (k < H →
      RgbModel.nextRow (RgbModel.callsAfter (RgbModel.partition W H) k)
        = (some ⟨k, k * W, W⟩, ⟨W, H, k + 1⟩)) ∧
    (H ≤ k →
      RgbModel.nextRow (RgbModel.callsAfter (RgbModel.partition W H) k)
        = (none, ⟨W, H, H⟩)) := by
  rw [RgbModel.callsAfter_eq W H hH k]
  constructor
  · intro hk
    have hmin : min k H = k := by omega
    have h1 : k * W < U32 := lt_of_le_of_lt (Nat.mul_le_mul_right W hk.le) hWH
    have h2 : (k + 1) * W < U32 := lt_of_le_of_lt (Nat.mul_le_mul_right W hk) hWH
    have h3 : k + 1 < U32 := by omega
    unfold RgbModel.nextRow
    dsimp only
    rw [hmin, if_neg (by omega)]
    rw [Nat.mod_eq_of_lt h3, Nat.mod_eq_of_lt h1, Nat.mod_eq_of_lt h2]
    have hlen : (k + 1) * W - k * W = W := by
      rw [Nat.succ_mul]
      omega
    rw [hlen]
  · intro hk
    have hmin : min k H = H := by omega
    unfold RgbModel.nextRow
    dsimp only
    rw [hmin, if_pos le_rfl]
    simp only [Prod.mk.injEq, RgbModel.BufPartition.mk.injEq, true_and]
    simp only [U32] at *
    omega

/-- C8 witness: a 2-row, 3-wide partition: call 1 yields row 1 at offset
3 with length 3; call 5 yields nothing with the cursor at 2. -/
theorem c8_witness :
    (2 < U32 ∧ 2 * 3 < U32) ∧
    ((1 < 2 →
      RgbModel.nextRow (RgbModel.callsAfter (RgbModel.partition 3 2) 1)
        = (some ⟨1, 1 * 3, 3⟩, ⟨3, 2, 1 + 1⟩)) ∧
    (2 ≤ 1 →
      RgbModel.nextRow (RgbModel.callsAfter (RgbModel.partition 3 2) 1)
        = (none, ⟨3, 2, 2⟩))) :=
  ⟨⟨by decide, by decide⟩, c8_next_row 3 2 1 (by decide) (by decide)⟩

/-- C6: for counts and indices in `u32` range, the `face` bounds check
accepts its three index pairs exactly when every vertex index `v`
satisfies `1 ≤ v` and `v − 1 < n_v` and every normal index `n` satisfies
`1 ≤ n` and `n − 1 < n_n`; in particular index 0, mapped by the wrapping
subtraction to `2^32 − 1`, is always rejected with
`FaceIndexOutOfBounds`. -/
theorem c6_face_index_bounds (nv nn : Nat) (idxs : List (Nat × Nat))
    (hnv : nv < U32) (hnn : nn < U32)
    (hidx : ∀ p ∈ idxs, p.1 < U32 ∧ p.2 < U32) :
    SceneModel.faceOk nv nn idxs = true ↔
      ∀ p ∈ idxs, (1 ≤ p.1 ∧ p.1 - 1 < nv) ∧ (1 ≤ p.2 ∧ p.2 - 1 < nn) := by
  unfold SceneModel.faceOk
  unfold U32 at hnv hnn
  rw [List.all_eq_true]
  constructor
  · intro h p hp
    have hb := hidx p hp
    have hc := h p hp
    simp only [SceneModel.faceIndexOk, SceneModel.wrapSub1, U32,
      Bool.and_eq_true, decide_eq_true_eq] at hb hc ⊢
    omega
  · intro h p hp
    have hb := hidx p hp
    have hc := h p hp
    simp only [SceneModel.faceIndexOk, SceneModel.wrapSub1, U32,
      Bool.and_eq_true, decide_eq_true_eq] at hb hc ⊢
    omega

/-- C6 witness: with 2 vertices and 1 normal, the pairs
`1/1 2/1 1/1` are in bounds. -/
theorem c6_witness :
    ((2 : Nat) < U32 ∧ (1 : Nat) < U32 ∧
      (∀ p ∈ [((1 : Nat), (1 : Nat)), (2, 1), (1, 1)], p.1 < U32 ∧ p.2 < U32)) ∧
    (SceneModel.faceOk 2 1 [(1, 1), (2, 1), (1, 1)] = true ↔
      ∀ p ∈ [((1 : Nat), (1 : Nat)), (2, 1), (1, 1)],
        (1 ≤ p.1 ∧ p.1 - 1 < 2) ∧ (1 ≤ p.2 ∧ p.2 - 1 < 1)) :=
  ⟨⟨by decide, by decide, by decide⟩,
    c6_face_index_bounds 2 1 [(1, 1), (2, 1), (1, 1)] (by decide) (by decide) (by decide)⟩

/-- C9: parsing the token `#ff8000` yields `(255/255, 128/255, 0/255)`,
whose components are within `1/255` of `(1.0, 0.502, 0.0)`, and
converting each component back through `round(clamp(c·255, 0, 255))`
yields exactly the bytes `(255, 128, 0)`. -/
theorem c9_color_roundtrip :
    ∃ r g b, ColorModel.colorParse ['#', 'f', 'f', '8', '0', '0', '0'] = some (r, g, b) ∧
      |r - 1| ≤ 1 / 255 ∧ |g - 502 / 1000| ≤ 1 / 255 ∧ |b - 0| ≤ 1 / 255 ∧
      ColorModel.toRgbByte r = 255 ∧ ColorModel.toRgbByte g = 128 ∧
      ColorModel.toRgbByte b = 0 := by
  have hf : ColorModel.hexPair 'f' 'f' = some 255 := by decide
  have h8 : ColorModel.hexPair '8' '0' = some 128 := by decide
  have h0 : ColorModel.hexPair '0' '0' = some 0 := by decide
  refine ⟨(255 : ℚ) / 255, (128 : ℚ) / 255, (0 : ℚ) / 255, ?_, ?_, ?_, ?_, ?_, ?_, ?_⟩
  · simp [ColorModel.colorParse, hf, h8, h0]
  · rw [abs_le]
    constructor <;> norm_num
  · rw [abs_le]
    constructor <;> norm_num
  · rw [abs_le]
    constructor <;> norm_num
  · unfold ColorModel.toRgbByte
    norm_num
    rfl
  · unfold ColorModel.toRgbByte
    norm_num
    rfl
  · unfold ColorModel.toRgbByte
    norm_num


/-! ## Theorems: claim C10 -/

namespace ParseModel

theorem countWord_cons (w t : Token) (rest : List Token) :
    countWord w (t :: rest) = (if t = w then 1 else 0) + countWord w rest := by
  simp only [countWord, List.countP_cons, decide_eq_true_eq]
  omega

theorem countWord_drop_le (w : Token) (ts : List Token) (k : Nat) :
    countWord w (ts.drop k) ≤ countWord w ts :=
  List.Sublist.countP_le _ (List.drop_sublist k ts)

/-- Stepping over one consumed non-brace token can only shrink the
in-block count. -/
theorem countBefore_cons_eq (w t : Token) (rest : List Token) :
    countBefore w (t :: rest)
      = if t = closeBrace then 0 else (if t = w then 1 else 0) + countBefore w rest := by
  rw [countBefore]

theorem countBefore_cons_le (w t : Token) (rest : List Token) (h : ¬ t = closeBrace) :
    countBefore w rest ≤ countBefore w (t :: rest) := by
  rw [countBefore_cons_eq, if_neg h]
  omega

/-- A token accepted by the `v64` parser has three comma-separated
components, so it is not the closing brace. -/
theorem vec64_some_ne_brace (pf : Token → Option ℚ) (t : Token) (u : Unit)
    (h : vec64 pf t = some u) : ¬ t = closeBrace := by
  intro heq
  rw [heq] at h
  unfold vec64 at h
  rw [show splitChar ',' closeBrace = [closeBrace] from by decide] at h
  simp at h

/-- A token accepted by the face component parser has two
slash-separated components, so it is not the closing brace. -/
theorem faceIdxOk_some_ne_brace (pu : Token → Option Nat) (nv nn : Nat) (t : Token)
    (u : Unit) (h : faceIdxOk pu nv nn t = some u) : ¬ t = closeBrace := by
  intro heq
  rw [heq] at h
  unfold faceIdxOk at h
  rw [show splitChar '/' closeBrace = [closeBrace] from by decide] at h
  simp at h

/-- Shape of a successful `vector(p)`: one token consumed, and it parses
as a vector. -/
theorem vectorV_some (pf : Token → Option ℚ) (ts : List Token) (n : Nat)
    (h : vectorV pf ts = some n) :
    n = 1 ∧ ∃ u rest2, ts = u :: rest2 ∧ ∃ uu, vec64 pf u = some uu := by
  match ts with
  | [] => simp [vectorV] at h
  | u :: rest2 =>
      simp only [vectorV] at h
      cases hv : vec64 pf u with
      | none => rw [hv] at h; simp at h
      | some uu =>
          rw [hv] at h
          simp only [Option.map_some', Option.some.injEq] at h
          exact ⟨h.symm, u, rest2, rfl, uu, hv⟩

/-- Shape of a successful triple of face components: three tokens
consumed, each passing the component parser. -/
theorem faceArgs_some (pu : Token → Option Nat) (nv nn : Nat) (ts : List Token)
    (n : Nat) (h : faceArgs pu nv nn ts = some n) :
    n = 3 ∧ ∃ t1 t2 t3 rest2, ts = t1 :: t2 :: t3 :: rest2 ∧
      (∃ u, faceIdxOk pu nv nn t1 = some u) ∧
      (∃ u, faceIdxOk pu nv nn t2 = some u) ∧
      (∃ u, faceIdxOk pu nv nn t3 = some u) := by
  match ts with
  | [] => simp [faceArgs] at h
  | [t1] => simp [faceArgs] at h
  | [t1, t2] => simp [faceArgs] at h
  | t1 :: t2 :: t3 :: rest2 =>
      simp only [faceArgs] at h
      cases hv1 : faceIdxOk pu nv nn t1 with
      | none => rw [hv1] at h; simp at h
      | some u1 =>
          cases hv2 : faceIdxOk pu nv nn t2 with
          | none => rw [hv1, hv2] at h; simp at h
          | some u2 =>
              cases hv3 : faceIdxOk pu nv nn t3 with
              | none => rw [hv1, hv2, hv3] at h; simp at h
              | some u3 =>
                  rw [hv1, hv2, hv3] at h
                  simp only [Option.some.injEq] at h
                  exact ⟨h.symm, t1, t2, t3, rest2, rfl,
                    ⟨u1, hv1⟩, ⟨u2, hv2⟩, ⟨u3, hv3⟩⟩

/-- The filling loop of `mesh.data` never takes more `v`/`vn`/`f` slots
than the counting pass counted from the same position. -/
theorem dataLoop_le (pf : Token → Option ℚ) (pu : Token → Option Nat) (nv nn : Nat) :
    ∀ n (ts : List Token), ts.length ≤ n →
      (dataLoop pf pu nv nn ts).nv ≤ countBefore kwV ts ∧
      (dataLoop pf pu nv nn ts).nn ≤ countBefore kwVn ts ∧
      (dataLoop pf pu nv nn ts).nf ≤ countBefore kwF ts := by
  intro n
  induction n with
  | zero =>
      intro ts h
      have hnil : ts = [] := List.eq_nil_of_length_eq_zero (by omega)
      subst hnil
      rw [dataLoop]
      exact ⟨Nat.zero_le _, Nat.zero_le _, Nat.zero_le _⟩
  | succ n ih =>
      intro ts hlen
      match ts with
      | [] =>
          rw [dataLoop]
          exact ⟨Nat.zero_le _, Nat.zero_le _, Nat.zero_le _⟩
      | t :: rest =>
          have hVb : ¬ (kwV : Token) = closeBrace := by decide
          have hVnb : ¬ (kwVn : Token) = closeBrace := by decide
          have hFb : ¬ (kwF : Token) = closeBrace := by decide
          simp only [List.length_cons] at hlen
          rw [dataLoop]
          split_ifs with h1 h2 h3 h4
          · exact ⟨Nat.zero_le _, Nat.zero_le _, Nat.zero_le _⟩
          · -- t = "v"
            subst h2
            cases hv : vectorV pf rest with
            | none => exact ⟨Nat.zero_le _, Nat.zero_le _, Nat.zero_le _⟩
            | some nk =>
                obtain ⟨hn1, u, rest2, hrest, uu, hu⟩ := vectorV_some pf rest nk hv
                subst hn1
                subst hrest
                have hub := vec64_some_ne_brace pf u uu hu
                obtain ⟨ha, hb, hc⟩ := ih rest2 (by
                  simp only [List.length_cons] at hlen
                  omega)
                have hdrop : (u :: rest2).drop 1 = rest2 := rfl
                dsimp only
                rw [hdrop]
                have s1 := countBefore_cons_le kwV u rest2 hub
                have s2 := countBefore_cons_le kwVn u rest2 hub
                have s3 := countBefore_cons_le kwF u rest2 hub
                refine ⟨?_, ?_, ?_⟩
                · rw [countBefore_cons_eq, if_neg hVb, if_pos rfl]
                  omega
                · rw [countBefore_cons_eq kwVn, if_neg hVb]
                  omega
                · rw [countBefore_cons_eq kwF, if_neg hVb]
                  omega
          · -- t = "vn"
            subst h3
            cases hv : vectorV pf rest with
            | none => exact ⟨Nat.zero_le _, Nat.zero_le _, Nat.zero_le _⟩
            | some nk =>
                obtain ⟨hn1, u, rest2, hrest, uu, hu⟩ := vectorV_some pf rest nk hv
                subst hn1
                subst hrest
                have hub := vec64_some_ne_brace pf u uu hu
                obtain ⟨ha, hb, hc⟩ := ih rest2 (by
                  simp only [List.length_cons] at hlen
                  omega)
                have hdrop : (u :: rest2).drop 1 = rest2 := rfl
                dsimp only
                rw [hdrop]
                have s1 := countBefore_cons_le kwV u rest2 hub
                have s2 := countBefore_cons_le kwVn u rest2 hub
                have s3 := countBefore_cons_le kwF u rest2 hub
                refine ⟨?_, ?_, ?_⟩
                · rw [countBefore_cons_eq kwV, if_neg hVnb]
                  omega
                · rw [countBefore_cons_eq kwVn, if_neg hVnb, if_pos rfl]
                  omega
                · rw [countBefore_cons_eq kwF, if_neg hVnb]
                  omega
          · -- t = "f"
            subst h4
            cases hv : faceArgs pu nv nn rest with
            | none =>
                refine ⟨Nat.zero_le _, Nat.zero_le _, ?_⟩
                rw [countBefore_cons_eq, if_neg hFb, if_pos rfl]
                dsimp only
                omega
            | some nk =>
                obtain ⟨hn3, t1, t2, t3, rest2, hrest, ⟨u1, hu1⟩, ⟨u2, hu2⟩, ⟨u3, hu3⟩⟩ :=
                  faceArgs_some pu nv nn rest nk hv
                subst hn3
                subst hrest
                have h1b := faceIdxOk_some_ne_brace pu nv nn t1 u1 hu1
                have h2b := faceIdxOk_some_ne_brace pu nv nn t2 u2 hu2
                have h3b := faceIdxOk_some_ne_brace pu nv nn t3 u3 hu3
                obtain ⟨ha, hb, hc⟩ := ih rest2 (by
                  simp only [List.length_cons] at hlen
                  omega)
                have hdrop : (t1 :: t2 :: t3 :: rest2).drop 3 = rest2 := rfl
                dsimp only
                rw [hdrop]
                have s1 := countBefore_cons_le kwV t3 rest2 h3b
                have s2 := countBefore_cons_le kwV t2 (t3 :: rest2) h2b
                have s3 := countBefore_cons_le kwV t1 (t2 :: t3 :: rest2) h1b
                have s4 := countBefore_cons_le kwVn t3 rest2 h3b
                have s5 := countBefore_cons_le kwVn t2 (t3 :: rest2) h2b
                have s6 := countBefore_cons_le kwVn t1 (t2 :: t3 :: rest2) h1b
                have s7 := countBefore_cons_le kwF t3 rest2 h3b
                have s8 := countBefore_cons_le kwF t2 (t3 :: rest2) h2b
                have s9 := countBefore_cons_le kwF t1 (t2 :: t3 :: rest2) h1b
                refine ⟨?_, ?_, ?_⟩
                · rw [countBefore_cons_eq kwV, if_neg hFb]
                  omega
                · rw [countBefore_cons_eq kwVn, if_neg hFb]
                  omega
                · rw [countBefore_cons_eq kwF, if_neg hFb, if_pos rfl]
                  omega
          · exact ⟨Nat.zero_le _, Nat.zero_le _, Nat.zero_le _⟩

/-- Bounding one step of the top-level loop: if the result is within the
new accumulator plus the count on the dropped suffix, it is within the
old accumulator plus the count including the dispatched key token. -/
theorem step_le (w t : Token) (rest : List Token) (k a x : Nat)
    (hx : x ≤ a + (if t = w then 1 else 0) + countWord w (rest.drop k)) :
    x ≤ a + countWord w (t :: rest) := by
  have h1 := countWord_drop_le w rest k
  rw [countWord_cons]
  omega

/-- The top-level filling pass never takes more `sphere`/`plane`/`mesh`
slots than the words counted in the whole input. -/
theorem sceneLoop_le (pf : Token → Option ℚ) (pu : Token → Option Nat) :
    ∀ n (ts : List Token), ts.length ≤ n → ∀ ns np nm,
      (sceneLoop pf pu ns np nm ts).1 ≤ ns + countWord kwSphere ts ∧
      (sceneLoop pf pu ns np nm ts).2.1 ≤ np + countWord kwPlane ts ∧
      (sceneLoop pf pu ns np nm ts).2.2 ≤ nm + countWord kwMesh ts := by
  intro n
  induction n with
  | zero =>
      intro ts h ns np nm
      have hnil : ts = [] := List.eq_nil_of_length_eq_zero (by omega)
      subst hnil
      rw [sceneLoop]
      exact ⟨Nat.le_add_right _ _, Nat.le_add_right _ _, Nat.le_add_right _ _⟩
  | succ n ih =>
      intro ts hlen ns np nm
      match ts with
      | [] =>
          rw [sceneLoop]
          exact ⟨Nat.le_add_right _ _, Nat.le_add_right _ _, Nat.le_add_right _ _⟩
      | t :: rest =>
          simp only [List.length_cons] at hlen
          rw [sceneLoop]
          split_ifs with h1 h2 h3 h4 h5 h6
          · cases hc : colorV rest with
            | none =>
                refine ⟨?_, ?_, ?_⟩ <;> (dsimp only; rw [countWord_cons]; omega)
            | some k =>
                obtain ⟨ha, hb, hc2⟩ := ih (rest.drop k)
                  (by rw [List.length_drop]; omega) ns np nm
                dsimp only
                exact ⟨step_le _ t rest k ns _ (by omega),
                  step_le _ t rest k np _ (by omega),
                  step_le _ t rest k nm _ (by omega)⟩
          · cases hc : cameraN pf rest with
            | none =>
                refine ⟨?_, ?_, ?_⟩ <;> (dsimp only; rw [countWord_cons]; omega)
            | some k =>
                obtain ⟨ha, hb, hc2⟩ := ih (rest.drop k)
                  (by rw [List.length_drop]; omega) ns np nm
                dsimp only
                exact ⟨step_le _ t rest k ns _ (by omega),
                  step_le _ t rest k np _ (by omega),
                  step_le _ t rest k nm _ (by omega)⟩
          · -- t = "sphere"
            cases hc : sphereN pf rest with
            | none =>
                refine ⟨?_, ?_, ?_⟩ <;>
                  (dsimp only; rw [countWord_cons]; simp only [h3, eq_self_iff_true, if_true]; omega)
            | some k =>
                obtain ⟨ha, hb, hc2⟩ := ih (rest.drop k)
                  (by rw [List.length_drop]; omega) (ns + 1) np nm
                dsimp only
                exact ⟨step_le _ t rest k ns _ (by simp only [h3, eq_self_iff_true, if_true]; omega),
                  step_le _ t rest k np _ (by omega),
                  step_le _ t rest k nm _ (by omega)⟩
          · -- t = "plane"
            cases hc : planeN pf rest with
            | none =>
                refine ⟨?_, ?_, ?_⟩ <;>
                  (dsimp only; rw [countWord_cons]; simp only [h4, eq_self_iff_true, if_true]; omega)
            | some k =>
                obtain ⟨ha, hb, hc2⟩ := ih (rest.drop k)
                  (by rw [List.length_drop]; omega) ns (np + 1) nm
                dsimp only
                exact ⟨step_le _ t rest k ns _ (by omega),
                  step_le _ t rest k np _ (by simp only [h4, eq_self_iff_true, if_true]; omega),
                  step_le _ t rest k nm _ (by omega)⟩
          · -- t = "mesh"
            cases hc : meshN pf pu rest with
            | none =>
                refine ⟨?_, ?_, ?_⟩ <;>
                  (dsimp only; rw [countWord_cons]; simp only [h5, eq_self_iff_true, if_true]; omega)
            | some k =>
                obtain ⟨ha, hb, hc2⟩ := ih (rest.drop k)
                  (by rw [List.length_drop]; omega) ns np (nm + 1)
                dsimp only
                exact ⟨step_le _ t rest k ns _ (by omega),
                  step_le _ t rest k np _ (by omega),
                  step_le _ t rest k nm _ (by simp only [h5, eq_self_iff_true, if_true]; omega)⟩
          · cases hc : lightN pf rest with
            | none =>
                refine ⟨?_, ?_, ?_⟩ <;> (dsimp only; rw [countWord_cons]; omega)
            | some k =>
                obtain ⟨ha, hb, hc2⟩ := ih (rest.drop k)
                  (by rw [List.length_drop]; omega) ns np nm
                dsimp only
                exact ⟨step_le _ t rest k ns _ (by omega),
                  step_le _ t rest k np _ (by omega),
                  step_le _ t rest k nm _ (by omega)⟩
          · refine ⟨?_, ?_, ?_⟩ <;> (dsimp only; rw [countWord_cons]; omega)

end ParseModel

/-- C10: for every input token stream and every behaviour of the numeric
literal parsers, the counting pass covers the filling pass: the number of
`sphere`/`plane`/`mesh` groups dispatched by the top-level loop never
exceeds the occurrences of those words in the whole input, and inside a
`mesh.data` block the numbers of `v`/`vn`/`f` slots taken never exceed
the counts taken from the same position before filling — so the
slot-iterator `.next().unwrap()` calls always find a pre-allocated slot
and cannot panic. -/
theorem c10_counting_covers_fills (pf : ParseModel.Token → Option ℚ)
    (pu : ParseModel.Token → Option Nat) (ts : List ParseModel.Token)
    (nv nn : Nat) (ds : List ParseModel.Token) :
    ((ParseModel.sceneLoop pf pu 0 0 0 ts).1
        ≤ ParseModel.countWord ParseModel.kwSphere ts ∧
      (ParseModel.sceneLoop pf pu 0 0 0 ts).2.1
        ≤ ParseModel.countWord ParseModel.kwPlane ts ∧
      (ParseModel.sceneLoop pf pu 0 0 0 ts).2.2
        ≤ ParseModel.countWord ParseModel.kwMesh ts) ∧
    ((ParseModel.dataLoop pf pu nv nn ds).nv
        ≤ ParseModel.countBefore ParseModel.kwV ds ∧
      (ParseModel.dataLoop pf pu nv nn ds).nn
        ≤ ParseModel.countBefore ParseModel.kwVn ds ∧
      (ParseModel.dataLoop pf pu nv nn ds).nf
        ≤ ParseModel.countBefore ParseModel.kwF ds) := by
  constructor
  · have := ParseModel.sceneLoop_le pf pu ts.length ts le_rfl 0 0 0
    simpa using this
  · exact ParseModel.dataLoop_le pf pu nv nn ds.length ds le_rfl
